import Mathlib

/-!
Verification of `osrframework/utils/fuzz.py` (username fuzzing utilities).

Modelling conventions:

* Python strings are modelled as `List Char`, written `Str` below.  The
  claims only involve ASCII data, on which Lean's `Char.toLower`,
  `Char.toUpper`, `Char.isAlpha` and `Char.isWhitespace` agree with the
  Python string methods used by the code.
* Python sets of strings are modelled as duplicate-free lists.  CPython
  iterates a set in a hash-dependent order; no claim below depends on the
  iteration order inside one transformation family, only on membership and
  on the order of the families themselves.
* `datetime.now().year` is modelled by passing the current calendar year
  explicitly as an `Int` argument.
* A file read is modelled by `FileRead`: the raw lines the line iterator
  yielded before a possible failure, together with a flag recording whether
  an exception ended the read.  A failure of `open` itself (missing file,
  permission error) yields no line at all, so it is `⟨[], true⟩`; a decode
  error hit midway through the file yields the lines read so far.
* The result dict of `fuzz_usernames` is modelled as an association list
  with CPython dict semantics: assigning to an existing key updates its
  value in place (keeping its position), assigning a fresh key appends it.
-/

namespace Fuzz

/-- Python strings, modelled as lists of characters. -/
abbrev Str := List Char

/-- Python `s.lower()` (ASCII fragment). -/
def pyLower (s : Str) : Str := s.map Char.toLower

/-- Python `s.upper()` (ASCII fragment). -/
def pyUpper (s : Str) : Str := s.map Char.toUpper

/-- Helper for `pyTitle`: the flag records whether the previous character was
a letter. -/
def pyTitleAux : Bool → Str → Str
  | _, [] => []
  | prevAlpha, c :: cs =>
    if c.isAlpha then
      (if prevAlpha then c.toLower else c.toUpper) :: pyTitleAux true cs
    else
      c :: pyTitleAux false cs

/-- Python `s.title()` (ASCII fragment): words are maximal runs of letters;
the first letter of each run is uppercased, the following letters are
lowercased, and every non-letter character is kept and acts as a word
boundary. -/
def pyTitle (s : Str) : Str := pyTitleAux false s

/-- Python `s.strip()` (ASCII whitespace): drop whitespace from both ends. -/
def pyStrip (s : Str) : Str :=
  ((s.dropWhile Char.isWhitespace).reverse.dropWhile Char.isWhitespace).reverse

/-- Python `pat in s`: `pat` occurs as a contiguous substring of `s`. -/
def containsSub (pat s : Str) : Bool :=
  (List.range (s.length + 1)).any fun i => pat.isPrefixOf (s.drop i)

/-- Helper for `pyReplace`: the fuel argument only forces structural
termination and always starts at the length of the scanned string; every
recursive call strictly shrinks the string, so the `0` case with a non-empty
string is never reached. -/
def pyReplaceAux (old new : Str) : Nat → Str → Str
  | _, [] => []
  | 0, c :: cs => c :: cs
  | fuel + 1, c :: cs =>
    if old ≠ [] ∧ old.isPrefixOf (c :: cs) then
      new ++ pyReplaceAux old new fuel ((c :: cs).drop old.length)
    else
      c :: pyReplaceAux old new fuel cs

/-- Python `s.replace(old, new)` for a non-empty `old`: replace every
non-overlapping occurrence of `old`, scanning left to right.  (The code only
calls this with the non-empty literal `"<USERNAME>"`.) -/
def pyReplace (old new s : Str) : Str := pyReplaceAux old new s.length s

/-- The module constant `SEPARATOR_CHARS = ['', '.', '_', '-']`. -/
def SEPARATOR_CHARS : List Str := ["".data, ".".data, "_".data, "-".data]

/-- The module constant `COMMON_WORDS = ['dev', 'test', 'admin']`. -/
def COMMON_WORDS : List Str := ["dev".data, "test".data, "admin".data]

/-- The module constant `LEET_MAP`. -/
def LEET_MAP : Char → Option Char
  | 'a' => some '4'
  | 'e' => some '3'
  | 'i' => some '1'
  | 'o' => some '0'
  | 's' => some '5'
  | 't' => some '7'
  | _ => none

/-- The placeholder literal `'<USERNAME>'`. -/
def usernameTok : Str := "<USERNAME>".data

/-- Python `str(n)` for a natural number. -/
def natStr (n : Nat) : Str := (Nat.repr n).data

/-- The function `generate_case_variations`: the Python set literal
`{base.lower(), base.upper(), base.title()}`, modelled as a duplicate-free
list. -/
def generate_case_variations (base : Str) : List Str :=
  [pyLower base, pyUpper base, pyTitle base].dedup

/-- The function `generate_leet_variations`: for each index `i` of
`nick.lower()` whose character has a `LEET_MAP` entry, the variant
`nick[:i] + LEET_MAP[ch] + nick[i+1:]`; the Python set of variants is
modelled as a duplicate-free list. -/
def generate_leet_variations (nick : Str) : List Str :=
  ((List.range nick.length).filterMap fun i =>
    (LEET_MAP ((pyLower nick).getD i ' ')).map fun d =>
      nick.take i ++ d :: nick.drop (i + 1)).dedup

/-- Outcome of opening and iterating a text file: the raw lines the iterator
yielded before any failure, and whether a failure ended the read. -/
structure FileRead where
  yielded : List Str
  failed : Bool

/-- The function `load_custom_patterns`: accumulate, over the lines yielded
by the file iterator, the stripped lines that are non-empty and contain
`'<USERNAME>'`.  The `try`/`except` swallows every exception, so the
accumulator built so far is returned whether or not the read failed. -/
def load_custom_patterns (f : FileRead) : List Str :=
  f.yielded.foldl
    (fun patterns line =>
      let l := pyStrip line
      if l ≠ [] ∧ containsSub usernameTok l then patterns ++ [l] else patterns)
    []

/-- Per-nick state of the `fuzz_usernames` loop: the `seen` set (modelled as
a list queried by membership) and the `variations` output list. -/
structure St where
  seen : List Str
  variations : List Str

/-- One step of the case-variation loop: `seen.add(case_nick)` followed by an
unconditional `variations.append(case_nick)`. -/
def addCase (st : St) (c : Str) : St :=
  { seen := st.seen.insert c, variations := st.variations ++ [c] }

/-- One step of the later loops: append `c` only when it is not in `seen`. -/
def addNew (st : St) (c : Str) : St :=
  if c ∈ st.seen then st
  else { seen := st.seen.insert c, variations := st.variations ++ [c] }

/-- The list `years = [str(y) for y in range(now, now-6, -1)]`: this calendar
year and the five before it, as decimal strings. -/
def years (now : Int) : List Str :=
  (List.range 6).map fun k => (toString (now - (k : Int))).data

/-- Stage 1 of the per-nick loop body: the case variations, each added to
`seen` and appended unconditionally. -/
def stageCase (nick : Str) : St :=
  (generate_case_variations nick).foldl addCase { seen := [], variations := [] }

/-- Stage 2 of the per-nick loop body: for each separator, the numeric
suffixes `1..10`, then the year suffixes, then the common-word suffixes, all
built from the original `nick` and appended when unseen. -/
def stageSep (nick : Str) (now : Int) (st : St) : St :=
  SEPARATOR_CHARS.foldl
    (fun st sep =>
      let stN := (List.range' 1 10).foldl
        (fun st num => addNew st (nick ++ sep ++ natStr num)) st
      let stY := (years now).foldl
        (fun st year => addNew st (nick ++ sep ++ year)) stN
      COMMON_WORDS.foldl (fun st word => addNew st (nick ++ sep ++ word)) stY)
    st

/-- Stage 3 of the per-nick loop body: the leet variations, appended when
unseen. -/
def stageLeet (nick : Str) (st : St) : St :=
  (generate_leet_variations nick).foldl addNew st

/-- Stage 4 of the per-nick loop body: each custom pattern with
`'<USERNAME>'` replaced by the nick, appended when unseen. -/
def stageCustom (nick : Str) (custom_patterns : List Str) (st : St) : St :=
  custom_patterns.foldl (fun st pat => addNew st (pyReplace usernameTok nick pat)) st

/-- The body of the `for nick in nicks` loop of `fuzz_usernames`: starting
from `seen = set()` and `variations = []`, run the four transformation-family
stages and return the `variations` list. -/
def variationsFor (now : Int) (custom_patterns : List Str) (nick : Str) : List Str :=
  (stageCustom nick custom_patterns (stageLeet nick (stageSep nick now (stageCase nick)))).variations

/-- CPython dict assignment `d[k] = v` on an association list: update an
existing key in place (keeping its position), otherwise append. -/
def dictInsert (d : List (Str × List Str)) (k : Str) (v : List Str) :
    List (Str × List Str) :=
  if d.any fun p => decide (p.1 = k) then
    d.map fun p => if p.1 = k then (k, v) else p
  else d ++ [(k, v)]

/-- The expression `load_custom_patterns(config_path) if config_path else []`. -/
def patternsOf (config : Option FileRead) : List Str :=
  match config with
  | some f => load_custom_patterns f
  | none => []

/-- The function `fuzz_usernames(nicks, config_path)`: load the custom
patterns once, then fill the result dict with one entry per nick. -/
def fuzz_usernames (nicks : List Str) (config : Option FileRead) (now : Int) :
    List (Str × List Str) :=
  let custom_patterns := patternsOf config
  nicks.foldl (fun results nick => dictInsert results nick (variationsFor now custom_patterns nick)) []

/-- The module-level alias `fuzzUsufy = fuzz_usernames`. -/
def fuzzUsufy : List Str → Option FileRead → Int → List (Str × List Str) :=
  fuzz_usernames

/-- Modelled from the spec: the titlecase the spec ascribes to
`generate_case_variations`, which capitalizes the first letter of each
whitespace-delimited word and lowercases the rest (word boundaries at
whitespace only). -/
def specTitleWsAux : Bool → Str → Str
  | _, [] => []
  | atStart, c :: cs =>
    if c.isWhitespace then c :: specTitleWsAux true cs
    else (if atStart then c.toUpper else c.toLower) :: specTitleWsAux false cs

/-- Modelled from the spec: whitespace-delimited titlecase, starting at a
word boundary. -/
def specTitleWs (s : Str) : Str := specTitleWsAux true s

/-- The separator/suffix candidates of stage 2, in generation order: for each
separator, the numeric suffixes, then the year suffixes, then the word
suffixes. -/
def sepCandidates (nick : Str) (now : Int) : List Str :=
  SEPARATOR_CHARS.flatMap fun sep =>
    (List.range' 1 10).map (fun num => nick ++ sep ++ natStr num)
      ++ (years now).map (fun year => nick ++ sep ++ year)
      ++ COMMON_WORDS.map fun word => nick ++ sep ++ word

/-- Keys of the CPython dict built by inserting the given keys in order into
a dict whose keys are `seenKeys`: first occurrences survive, in input order. -/
def pyDictKeys (seenKeys : List Str) : List Str → List Str
  | [] => []
  | n :: rest =>
    if n ∈ seenKeys then pyDictKeys seenKeys rest
    else n :: pyDictKeys (seenKeys ++ [n]) rest

/-- Loop invariant of the per-nick state: the output list has no duplicates
and the `seen` set holds exactly the strings already output. -/
def Inv (st : St) : Prop :=
  st.variations.Nodup ∧ ∀ x, x ∈ st.seen ↔ x ∈ st.variations

end Fuzz

namespace Fuzz

/-- Folding the case-variation step appends the folded list as a block. -/
theorem foldl_addCase_variations (L : List Str) (st : St) :
    (L.foldl addCase st).variations = st.variations ++ L := by
  induction L generalizing st with
  | nil => simp
  | cons a L ih => simp [ih, addCase]

/-- Membership in `seen` after the case-variation fold. -/
theorem foldl_addCase_seen (L : List Str) (st : St) (x : Str) :
    x ∈ (L.foldl addCase st).seen ↔ x ∈ st.seen ∨ x ∈ L := by
  induction L generalizing st with
  | nil => simp
  | cons a L ih =>
    rw [List.foldl_cons, ih]
    simp only [addCase, List.mem_insert_iff, List.mem_cons]
    tauto

/-- The case stage outputs exactly the case variations. -/
theorem stageCase_variations (nick : Str) :
    (stageCase nick).variations = generate_case_variations nick := by
  simp [stageCase, foldl_addCase_variations]

/-- Invariant after the case stage: no duplicates, `seen` matches output. -/
theorem stageCase_inv (nick : Str) : Inv (stageCase nick) := by
  constructor
  · rw [stageCase_variations]
    exact List.nodup_dedup _
  · intro x
    rw [stageCase_variations, stageCase, foldl_addCase_seen]
    simp

/-- The dedup step preserves the loop invariant. -/
theorem addNew_inv {st : St} (h : Inv st) (c : Str) : Inv (addNew st c) := by
  unfold addNew
  split
  · exact h
  · next hc =>
    obtain ⟨hnd, hiff⟩ := h
    have hcv : c ∉ st.variations := fun hm => hc ((hiff c).mpr hm)
    refine ⟨hnd.append (List.nodup_singleton c) ?_, fun x => ?_⟩
    · intro x hx hxc
      rw [List.mem_singleton] at hxc
      exact hcv (hxc ▸ hx)
    · simp only [List.mem_insert_iff, List.mem_append, List.mem_singleton, hiff x]
      tauto

/-- Folding the dedup step preserves the loop invariant. -/
theorem foldl_addNew_inv (L : List Str) {st : St} (h : Inv st) :
    Inv (L.foldl addNew st) := by
  induction L generalizing st with
  | nil => exact h
  | cons a L ih => exact ih (addNew_inv h a)

/-- Folding the dedup step appends a block of elements of the folded list. -/
theorem foldl_addNew_decomp (L : List Str) (st : St) :
    ∃ D, (L.foldl addNew st).variations = st.variations ++ D ∧ ∀ x ∈ D, x ∈ L := by
  induction L generalizing st with
  | nil => exact ⟨[], by simp, by simp⟩
  | cons a L ih =>
    obtain ⟨D, hD, hmem⟩ := ih (addNew st a)
    by_cases hc : a ∈ st.seen
    · have ha : addNew st a = st := by simp [addNew, hc]
      rw [List.foldl_cons]
      exact ⟨D, by rw [hD, ha], fun x hx => List.mem_cons_of_mem a (hmem x hx)⟩
    · have ha : addNew st a = ⟨st.seen.insert a, st.variations ++ [a]⟩ := by
        simp [addNew, hc]
      refine ⟨a :: D, ?_, ?_⟩
      · rw [List.foldl_cons, hD, ha]
        simp
      · intro x hx
        rcases List.mem_cons.mp hx with rfl | hx
        · exact List.mem_cons_self x L
        · exact List.mem_cons_of_mem a (hmem x hx)

/-- The dedup fold never removes an element already output. -/
theorem mem_variations_foldl_addNew (L : List Str) (st : St) {x : Str}
    (h : x ∈ st.variations) : x ∈ (L.foldl addNew st).variations := by
  obtain ⟨D, hD, _⟩ := foldl_addNew_decomp L st
  rw [hD]
  exact List.mem_append_left _ h

/-- Under the invariant, every element of the folded list ends up in the
output (it is either appended now or was already present). -/
theorem mem_foldl_addNew (L : List Str) {st : St} (hInv : Inv st) {c : Str}
    (hc : c ∈ L) : c ∈ (L.foldl addNew st).variations := by
  induction L generalizing st with
  | nil => cases hc
  | cons a L ih =>
    rw [List.foldl_cons]
    rcases List.mem_cons.mp hc with rfl | hcL
    · apply mem_variations_foldl_addNew
      by_cases hs : c ∈ st.seen
      · have hv := (hInv.2 c).mp hs
        simp [addNew, hs, hv]
      · simp [addNew, hs]
    · exact ih (addNew_inv hInv a) hcL

end Fuzz

namespace Fuzz

/-- Folding over a flattened list equals the nested fold. -/
theorem foldl_flatMap {α β γ : Type _} (f : α → List β) (g : γ → β → γ)
    (l : List α) (i : γ) :
    (l.flatMap f).foldl g i = l.foldl (fun s a => (f a).foldl g s) i := by
  induction l generalizing i with
  | nil => rfl
  | cons a l ih => simp [List.flatMap_cons, List.foldl_append, ih]

/-- The separator stage is the dedup fold over its candidate list. -/
theorem stageSep_eq (nick : Str) (now : Int) (st : St) :
    stageSep nick now st = (sepCandidates nick now).foldl addNew st := by
  simp only [stageSep, sepCandidates, foldl_flatMap, List.foldl_append, List.foldl_map]

/-- The custom-pattern stage is the dedup fold over the substituted rules. -/
theorem stageCustom_eq (nick : Str) (pats : List Str) (st : St) :
    stageCustom nick pats st = (pats.map (pyReplace usernameTok nick)).foldl addNew st := by
  simp only [stageCustom, List.foldl_map]

/-- Invariant after the separator stage. -/
theorem stageSep_inv (nick : Str) (now : Int) :
    Inv (stageSep nick now (stageCase nick)) := by
  rw [stageSep_eq]
  exact foldl_addNew_inv _ (stageCase_inv nick)

/-- Invariant after the leet stage. -/
theorem stageLeet_inv (nick : Str) (now : Int) :
    Inv (stageLeet nick (stageSep nick now (stageCase nick))) :=
  foldl_addNew_inv _ (stageSep_inv nick now)

/-- The output of one per-nick loop body never repeats a string. -/
theorem variationsFor_nodup (now : Int) (pats : List Str) (nick : Str) :
    (variationsFor now pats nick).Nodup := by
  unfold variationsFor
  rw [stageCustom_eq]
  exact (foldl_addNew_inv _ (stageLeet_inv nick now)).1

/-- Every separator/suffix candidate reaches the output. -/
theorem mem_variationsFor_of_sep (now : Int) (pats : List Str) (nick : Str)
    {c : Str} (hc : c ∈ sepCandidates nick now) :
    c ∈ variationsFor now pats nick := by
  unfold variationsFor stageLeet
  rw [stageCustom_eq]
  apply mem_variations_foldl_addNew
  apply mem_variations_foldl_addNew
  rw [stageSep_eq]
  exact mem_foldl_addNew _ (stageCase_inv nick) hc

/-- Every substituted custom pattern reaches the output. -/
theorem mem_variationsFor_of_custom (now : Int) (pats : List Str) (nick : Str)
    {pat : Str} (hpat : pat ∈ pats) :
    pyReplace usernameTok nick pat ∈ variationsFor now pats nick := by
  unfold variationsFor
  rw [stageCustom_eq]
  exact mem_foldl_addNew _ (stageLeet_inv nick now) (List.mem_map_of_mem _ hpat)

/-- Inserting a key makes it present with the inserted value. -/
theorem mem_dictInsert_self (d : List (Str × List Str)) (k : Str) (v : List Str) :
    (k, v) ∈ dictInsert d k v := by
  unfold dictInsert
  split
  · next h =>
    rw [List.any_eq_true] at h
    obtain ⟨p, hp, hpk⟩ := h
    rw [decide_eq_true_eq] at hpk
    refine List.mem_map.mpr ⟨p, hp, ?_⟩
    rw [if_pos hpk]
  · exact List.mem_append_right _ (List.mem_singleton.mpr rfl)

/-- Inserting with values drawn from `V` preserves every `V`-shaped entry. -/
theorem mem_dictInsert_keep {V : Str → List Str} {d : List (Str × List Str)}
    {n k : Str} (h : (n, V n) ∈ d) : (n, V n) ∈ dictInsert d k (V k) := by
  unfold dictInsert
  split
  · refine List.mem_map.mpr ⟨(n, V n), h, ?_⟩
    by_cases hnk : n = k
    · subst hnk
      rw [if_pos rfl]
    · rw [if_neg hnk]
  · exact List.mem_append_left _ h

/-- Every requested key ends up in the dict built by the main loop. -/
theorem fuzz_fold_mem {V : Str → List Str} :
    ∀ (ns : List Str) (d : List (Str × List Str)) (n : Str),
      ((n, V n) ∈ d ∨ n ∈ ns) →
      (n, V n) ∈ ns.foldl (fun r m => dictInsert r m (V m)) d := by
  intro ns
  induction ns with
  | nil =>
    intro d n h
    rcases h with h | h
    · exact h
    · cases h
  | cons a ns ih =>
    intro d n h
    rw [List.foldl_cons]
    apply ih
    rcases h with h | h
    · exact Or.inl (mem_dictInsert_keep h)
    · rcases List.mem_cons.mp h with rfl | h
      · exact Or.inl (mem_dictInsert_self d n (V n))
      · exact Or.inr h

/-- Every entry of the dict built by the main loop carries the value `V` of
its key, and a key satisfying the tracked property. -/
theorem fuzz_fold_entries (V : Str → List Str) (P : Str → Prop) :
    ∀ (ns : List Str) (d : List (Str × List Str)),
      (∀ p ∈ d, p.2 = V p.1 ∧ P p.1) → (∀ n ∈ ns, P n) →
      ∀ p ∈ ns.foldl (fun r m => dictInsert r m (V m)) d, p.2 = V p.1 ∧ P p.1 := by
  intro ns
  induction ns with
  | nil => exact fun d hd _ p hp => hd p hp
  | cons a ns ih =>
    intro d hd hns p hp
    rw [List.foldl_cons] at hp
    refine ih _ ?_ (fun n hn => hns n (List.mem_cons_of_mem a hn)) p hp
    intro q hq
    unfold dictInsert at hq
    split at hq
    · obtain ⟨r, hr, hrq⟩ := List.mem_map.mp hq
      by_cases hra : r.1 = a
      · rw [if_pos hra] at hrq
        rw [← hrq]
        exact ⟨rfl, hns a (List.mem_cons_self a ns)⟩
      · rw [if_neg hra] at hrq
        rw [← hrq]
        exact hd r hr
    · rcases List.mem_append.mp hq with hq | hq
      · exact hd q hq
      · rw [List.mem_singleton] at hq
        subst hq
        exact ⟨rfl, hns a (List.mem_cons_self a ns)⟩

end Fuzz

namespace Fuzz

/-- Updating an existing key leaves the key sequence unchanged. -/
theorem keys_dictInsert_of_mem {d : List (Str × List Str)} {k : Str}
    (v : List Str) (h : k ∈ d.map Prod.fst) :
    (dictInsert d k v).map Prod.fst = d.map Prod.fst := by
  unfold dictInsert
  rw [if_pos ?hc]
  case hc =>
    obtain ⟨p, hp, hpk⟩ := List.mem_map.mp h
    rw [List.any_eq_true]
    exact ⟨p, hp, decide_eq_true hpk⟩
  rw [List.map_map]
  apply List.map_congr_left
  intro p hp
  by_cases hpk : p.1 = k
  · simp [hpk]
  · simp [hpk]

/-- Inserting a fresh key appends it to the key sequence. -/
theorem keys_dictInsert_of_not_mem {d : List (Str × List Str)} {k : Str}
    (v : List Str) (h : k ∉ d.map Prod.fst) :
    (dictInsert d k v).map Prod.fst = d.map Prod.fst ++ [k] := by
  unfold dictInsert
  rw [if_neg ?hc]
  case hc =>
    rw [List.any_eq_true]
    rintro ⟨p, hp, hpk⟩
    rw [decide_eq_true_eq] at hpk
    exact h (List.mem_map.mpr ⟨p, hp, hpk⟩)
  rw [List.map_append]
  rfl

/-- Key sequence of the dict built by the main loop: first occurrences of
the inserted keys, in insertion order, after the keys already present. -/
theorem fuzz_fold_keys (V : Str → List Str) :
    ∀ (ns : List Str) (d : List (Str × List Str)),
      (ns.foldl (fun r m => dictInsert r m (V m)) d).map Prod.fst
        = d.map Prod.fst ++ pyDictKeys (d.map Prod.fst) ns := by
  intro ns
  induction ns with
  | nil =>
    intro d
    simp [pyDictKeys]
  | cons a ns ih =>
    intro d
    rw [List.foldl_cons, ih]
    by_cases ha : a ∈ d.map Prod.fst
    · rw [keys_dictInsert_of_mem _ ha]
      simp [pyDictKeys, ha]
    · rw [keys_dictInsert_of_not_mem _ ha]
      simp [pyDictKeys, ha]

/-- First-occurrence key sequences have no duplicates and avoid the keys
already present. -/
theorem pyDictKeys_nodup_and :
    ∀ (ns seenKeys : List Str),
      (pyDictKeys seenKeys ns).Nodup ∧ ∀ x ∈ pyDictKeys seenKeys ns, x ∉ seenKeys := by
  intro ns
  induction ns with
  | nil =>
    intro seenKeys
    simp [pyDictKeys]
  | cons a ns ih =>
    intro seenKeys
    unfold pyDictKeys
    split
    · exact ih seenKeys
    · next ha =>
      obtain ⟨hnd, hmem⟩ := ih (seenKeys ++ [a])
      constructor
      · rw [List.nodup_cons]
        refine ⟨fun hin => hmem a hin (List.mem_append_right _ ?_), hnd⟩
        exact List.mem_singleton.mpr rfl
      · intro x hx
        rcases List.mem_cons.mp hx with rfl | hx
        · exact ha
        · exact fun hxs => hmem x hx (List.mem_append_left _ hxs)

/-- Entries of `fuzz_usernames`: key from the input list, value computed by
the per-nick loop body from a fresh state. -/
theorem fuzz_entries (nicks : List Str) (config : Option FileRead) (now : Int) :
    ∀ p ∈ fuzz_usernames nicks config now,
      p.2 = variationsFor now (patternsOf config) p.1 ∧ p.1 ∈ nicks := by
  intro p hp
  exact fuzz_fold_entries (variationsFor now (patternsOf config))
    (fun n => n ∈ nicks) nicks [] (by simp) (fun n hn => hn) p hp

/-- Each input nick has its entry in `fuzz_usernames`. -/
theorem fuzz_mem_entry (nicks : List Str) (config : Option FileRead) (now : Int)
    {nick : Str} (h : nick ∈ nicks) :
    (nick, variationsFor now (patternsOf config) nick) ∈ fuzz_usernames nicks config now :=
  fuzz_fold_mem nicks [] nick (Or.inr h)

/-- The pattern-loading loop is a filter of the stripped lines. -/
theorem load_foldl_filter :
    ∀ (ls : List Str) (acc : List Str),
      ls.foldl
        (fun patterns line =>
          let l := pyStrip line
          if l ≠ [] ∧ containsSub usernameTok l then patterns ++ [l] else patterns)
        acc
      = acc ++ (ls.map pyStrip).filter
          (fun l => decide (l ≠ [] ∧ containsSub usernameTok l)) := by
  intro ls
  induction ls with
  | nil => simp
  | cons a ls ih =>
    intro acc
    rw [List.foldl_cons]
    by_cases h : pyStrip a ≠ [] ∧ containsSub usernameTok (pyStrip a)
    · simp only [List.map_cons, List.filter_cons, if_pos h, decide_eq_true h, ih]
      simp
    · simp only [List.map_cons, List.filter_cons, if_neg h, decide_eq_false h, ih]
      simp

end Fuzz

namespace Fuzz

/-- C4: `generate_leet_variations s` contains exactly the strings obtained by
substituting one single position of `s`: an index whose lowercased character
has a `LEET_MAP` entry is replaced by the mapped digit in the original-cased
string.  There are at most `s.length` variants; for `"test"` the output is
`["7est", "t3st", "te5t", "tes7"]` and does not contain the multi-position
form `"7357"`. -/
theorem generate_leet_variations_spec (s x : Str) :
    (x ∈ generate_leet_variations s ↔
      ∃ i d, i < s.length ∧ LEET_MAP ((pyLower s).getD i ' ') = some d ∧
        x = s.take i ++ d :: s.drop (i + 1)) ∧
    (generate_leet_variations s).length ≤ s.length ∧
    generate_leet_variations "test".data
      = ["7est".data, "t3st".data, "te5t".data, "tes7".data] ∧
    "7357".data ∉ generate_leet_variations "test".data := by
  refine ⟨?_, ?_, by decide, by decide⟩
  · unfold generate_leet_variations
    rw [List.mem_dedup, List.mem_filterMap]
    constructor
    · rintro ⟨i, hi, hx⟩
      rw [List.mem_range] at hi
      rw [Option.map_eq_some'] at hx
      obtain ⟨d, hd, hxd⟩ := hx
      exact ⟨i, d, hi, hd, hxd.symm⟩
    · rintro ⟨i, d, hi, hd, rfl⟩
      refine ⟨i, List.mem_range.mpr hi, ?_⟩
      rw [hd]
      rfl
  · calc (generate_leet_variations s).length
        ≤ ((List.range s.length).filterMap fun i =>
            (LEET_MAP ((pyLower s).getD i ' ')).map fun d =>
              s.take i ++ d :: s.drop (i + 1)).length :=
          (List.dedup_sublist _).length_le
    _ ≤ (List.range s.length).length := List.length_filterMap_le _ _
    _ = s.length := List.length_range s.length

/-- C5 counterexample: on input `"alice_bob"` the code's output contains
Python's `str.title()` result `"Alice_Bob"` (word boundary at the
underscore), not the whitespace-delimited titlecase `"Alice_bob"` that the
claim describes, so the output set differs from
`{lowercase(s), uppercase(s), whitespace-titlecase(s)}`. -/
theorem generate_case_variations_ws_title_cex :
    "Alice_Bob".data ∈ generate_case_variations "alice_bob".data ∧
    "Alice_bob".data ∉ generate_case_variations "alice_bob".data ∧
    specTitleWs "alice_bob".data = "Alice_bob".data ∧
    pyTitle "alice_bob".data = "Alice_Bob".data := by
  refine ⟨by decide, by decide, by decide, by decide⟩

/-- C5 (amended): `generate_case_variations s` is exactly the set
`{lowercase(s), uppercase(s), titlecase(s)}` where titlecase follows Python
`str.title()` (word boundaries at every non-letter, not only whitespace),
with coincident forms collapsed to a single element; for `"Alice"` the
output is `["alice", "ALICE", "Alice"]`. -/
theorem generate_case_variations_spec (s : Str) :
    (∀ x, x ∈ generate_case_variations s ↔
      x = pyLower s ∨ x = pyUpper s ∨ x = pyTitle s) ∧
    (generate_case_variations s).Nodup ∧
    generate_case_variations "Alice".data
      = ["alice".data, "ALICE".data, "Alice".data] := by
  refine ⟨?_, List.nodup_dedup _, by decide⟩
  intro x
  simp [generate_case_variations, List.mem_dedup]

/-- C6 counterexample: a read that fails after yielding one valid pattern
line (as a decode error can, once earlier lines were already produced by the
file iterator) returns that pattern, not the empty sequence the claim
promises for every failure. -/
theorem load_custom_patterns_failed_read_cex :
    load_custom_patterns ⟨["a<USERNAME>".data], true⟩ = ["a<USERNAME>".data] ∧
    load_custom_patterns ⟨["a<USERNAME>".data], true⟩ ≠ ([] : List Str) := by
  refine ⟨by decide, by decide⟩

/-- C6 (amended): `load_custom_patterns` returns exactly the
whitespace-trimmed forms of the lines yielded before any failure that are
non-empty and contain the literal `"<USERNAME>"`, in file order, and no
failure propagates; when the file cannot be opened at all (missing file,
permission error) no line was yielded and the result is empty, but a failure
that interrupts reading mid-file returns the patterns accumulated so far. -/
theorem load_custom_patterns_spec (ls : List Str) (b : Bool) :
    load_custom_patterns ⟨ls, b⟩
      = (ls.map pyStrip).filter
          (fun l => decide (l ≠ [] ∧ containsSub usernameTok l)) ∧
    load_custom_patterns ⟨[], b⟩ = [] := by
  refine ⟨?_, rfl⟩
  unfold load_custom_patterns
  simpa using load_foldl_filter ls []

/-- C7: calling `fuzz_usernames` with a pattern-file path whose `open` fails
(a nonexistent file) raises nothing and returns exactly what the call with
no pattern file returns. -/
theorem fuzz_usernames_missing_pattern_file (nicks : List Str) (now : Int) :
    fuzz_usernames nicks (some ⟨[], true⟩) now = fuzz_usernames nicks none now := rfl

/-- C10: the backward-compatibility alias `fuzzUsufy` is the same function
as `fuzz_usernames`, so both always return equal mappings. -/
theorem fuzzUsufy_eq_fuzz_usernames (nicks : List Str) (config : Option FileRead)
    (now : Int) :
    fuzzUsufy nicks config now = fuzz_usernames nicks config now := rfl

end Fuzz

namespace Fuzz

/-- Key sequence of a `fuzz_usernames` result: the first occurrences of the
input nicks, in input order. -/
theorem fuzz_keys (nicks : List Str) (config : Option FileRead) (now : Int) :
    (fuzz_usernames nicks config now).map Prod.fst = pyDictKeys [] nicks := by
  simpa using fuzz_fold_keys (variationsFor now (patternsOf config)) nicks []

/-- C1: no output sequence of `fuzz_usernames` repeats a string, across all
transformation families of one fuzz call (case-sensitive equality). -/
theorem fuzz_usernames_nodup (nicks : List Str) (config : Option FileRead)
    (now : Int) (p : Str × List Str) (hp : p ∈ fuzz_usernames nicks config now) :
    p.2.Nodup := by
  rcases fuzz_entries nicks config now p hp with ⟨hv, _⟩
  rw [hv]
  exact variationsFor_nodup _ _ _

set_option maxRecDepth 4096 in
/-- C1 witness: the claim instantiated at a concrete call. -/
theorem fuzz_usernames_nodup_witness :
    ("ab".data, variationsFor 9 (patternsOf none) "ab".data)
        ∈ fuzz_usernames ["ab".data] none 9 ∧
    (variationsFor 9 (patternsOf none) "ab".data).Nodup := by
  have hmem : ("ab".data, variationsFor 9 (patternsOf none) "ab".data)
      ∈ fuzz_usernames ["ab".data] none 9 :=
    fuzz_mem_entry ["ab".data] none 9 (List.mem_singleton.mpr rfl)
  exact ⟨hmem, fuzz_usernames_nodup _ _ _ _ hmem⟩

/-- C2: with the wall-clock year passed explicitly the call is a pure
function, so two calls on equal inputs return the same sequence of entries;
and each nick's output sequence is the case variants followed by a block of
separator/suffix expansions, a block of leet variants, and a block of
substituted custom patterns, in that family order. -/
theorem fuzz_usernames_deterministic_ordered (nicks : List Str)
    (config : Option FileRead) (now : Int) (p : Str × List Str)
    (hp : p ∈ fuzz_usernames nicks config now) :
    fuzz_usernames nicks config now = fuzz_usernames nicks config now ∧
    ∃ b2 b3 b4,
      p.2 = generate_case_variations p.1 ++ b2 ++ b3 ++ b4 ∧
      (∀ x ∈ b2, x ∈ sepCandidates p.1 now) ∧
      (∀ x ∈ b3, x ∈ generate_leet_variations p.1) ∧
      (∀ x ∈ b4, ∃ pat ∈ patternsOf config, x = pyReplace usernameTok p.1 pat) := by
  refine ⟨rfl, ?_⟩
  rcases fuzz_entries nicks config now p hp with ⟨hv, _⟩
  obtain ⟨D2, h2, h2m⟩ := foldl_addNew_decomp (sepCandidates p.1 now) (stageCase p.1)
  obtain ⟨D3, h3, h3m⟩ :=
    foldl_addNew_decomp (generate_leet_variations p.1) (stageSep p.1 now (stageCase p.1))
  obtain ⟨D4, h4, h4m⟩ :=
    foldl_addNew_decomp ((patternsOf config).map (pyReplace usernameTok p.1))
      (stageLeet p.1 (stageSep p.1 now (stageCase p.1)))
  refine ⟨D2, D3, D4, ?_, h2m, h3m, ?_⟩
  · rw [hv]
    unfold variationsFor
    rw [stageCustom_eq, h4]
    have h3' : (stageLeet p.1 (stageSep p.1 now (stageCase p.1))).variations
        = (stageSep p.1 now (stageCase p.1)).variations ++ D3 := h3
    have h2' : (stageSep p.1 now (stageCase p.1)).variations
        = (stageCase p.1).variations ++ D2 := by
      rw [stageSep_eq]
      exact h2
    rw [h3', h2', stageCase_variations]
  · intro x hx
    obtain ⟨pat, hpat, hpx⟩ := List.mem_map.mp (h4m x hx)
    exact ⟨pat, hpat, hpx.symm⟩

set_option maxRecDepth 4096 in
/-- C2 witness: the claim instantiated at a concrete call. -/
theorem fuzz_usernames_deterministic_ordered_witness :
    (("ab".data, variationsFor 9 (patternsOf none) "ab".data)
        ∈ fuzz_usernames ["ab".data] none 9) ∧
    (fuzz_usernames ["ab".data] none 9 = fuzz_usernames ["ab".data] none 9 ∧
     ∃ b2 b3 b4,
       variationsFor 9 (patternsOf none) "ab".data
         = generate_case_variations "ab".data ++ b2 ++ b3 ++ b4 ∧
       (∀ x ∈ b2, x ∈ sepCandidates "ab".data 9) ∧
       (∀ x ∈ b3, x ∈ generate_leet_variations "ab".data) ∧
       (∀ x ∈ b4, ∃ pat ∈ patternsOf none,
          x = pyReplace usernameTok "ab".data pat)) := by
  have hmem : ("ab".data, variationsFor 9 (patternsOf none) "ab".data)
      ∈ fuzz_usernames ["ab".data] none 9 :=
    fuzz_mem_entry ["ab".data] none 9 (List.mem_singleton.mpr rfl)
  exact ⟨hmem, fuzz_usernames_deterministic_ordered _ _ _ _ hmem⟩

/-- C3: for every input nick the output sequence contains, for each
separator of `SEPARATOR_CHARS`, the candidates built from the original
(uncased) base identifier: the numeric suffixes `1..10`, the year suffixes
for this calendar year down through five years prior, and the common word
suffixes `dev`, `test`, `admin`. -/
theorem fuzz_usernames_sep_suffixes (nicks : List Str) (config : Option FileRead)
    (now : Int) (nick : Str) (h : nick ∈ nicks) :
    ∃ vars, (nick, vars) ∈ fuzz_usernames nicks config now ∧
      ∀ sep ∈ SEPARATOR_CHARS,
        (∀ num ∈ List.range' 1 10, nick ++ sep ++ natStr num ∈ vars) ∧
        (∀ year ∈ years now, nick ++ sep ++ year ∈ vars) ∧
        (∀ word ∈ COMMON_WORDS, nick ++ sep ++ word ∈ vars) := by
  refine ⟨variationsFor now (patternsOf config) nick,
    fuzz_mem_entry nicks config now h, ?_⟩
  intro sep hsep
  refine ⟨fun num hnum => ?_, fun year hyear => ?_, fun word hword => ?_⟩
  · apply mem_variationsFor_of_sep
    refine List.mem_flatMap.mpr ⟨sep, hsep, ?_⟩
    simp only [List.mem_append, List.mem_map]
    exact Or.inl (Or.inl ⟨num, hnum, rfl⟩)
  · apply mem_variationsFor_of_sep
    refine List.mem_flatMap.mpr ⟨sep, hsep, ?_⟩
    simp only [List.mem_append, List.mem_map]
    exact Or.inl (Or.inr ⟨year, hyear, rfl⟩)
  · apply mem_variationsFor_of_sep
    refine List.mem_flatMap.mpr ⟨sep, hsep, ?_⟩
    simp only [List.mem_append, List.mem_map]
    exact Or.inr ⟨word, hword, rfl⟩

/-- C3 witness: the claim instantiated at a concrete call. -/
theorem fuzz_usernames_sep_suffixes_witness :
    "n".data ∈ (["n".data] : List Str) ∧
    ∃ vars, ("n".data, vars) ∈ fuzz_usernames ["n".data] none 9 ∧
      ∀ sep ∈ SEPARATOR_CHARS,
        (∀ num ∈ List.range' 1 10, "n".data ++ sep ++ natStr num ∈ vars) ∧
        (∀ year ∈ years 9, "n".data ++ sep ++ year ∈ vars) ∧
        (∀ word ∈ COMMON_WORDS, "n".data ++ sep ++ word ∈ vars) := by
  have h : "n".data ∈ (["n".data] : List Str) := List.mem_singleton.mpr rfl
  exact ⟨h, fuzz_usernames_sep_suffixes ["n".data] none 9 "n".data h⟩

/-- C8 counterexample: CPython dict keys are unique, so fuzzing the input
list `["a", "a"]` yields one mapping entry, not the two the claim promises. -/
theorem fuzz_usernames_duplicate_nicks_cex :
    (fuzz_usernames ["a".data, "a".data] none 9).length = 1 ∧
    (fuzz_usernames ["a".data, "a".data] none 9).length ≠ 2 := by
  have h : (fuzz_usernames ["a".data, "a".data] none 9).length = 1 := by
    rw [← List.length_map _ Prod.fst, fuzz_keys]
    decide
  exact ⟨h, by rw [h]; decide⟩

/-- C8 (amended): the mapping has one entry per distinct input identifier,
keyed in first-occurrence input order; every entry's sequence is computed by
the per-nick loop body from a fresh dedup state (no state shared between
identifiers), and fuzzing `["a", "a"]` collapses to the single entry that
fuzzing `["a"]` produces. -/
theorem fuzz_usernames_mapping_spec (nicks : List Str) (config : Option FileRead)
    (now : Int) :
    (fuzz_usernames nicks config now).map Prod.fst = pyDictKeys [] nicks ∧
    ((fuzz_usernames nicks config now).map Prod.fst).Nodup ∧
    (∀ p ∈ fuzz_usernames nicks config now,
      p.1 ∈ nicks ∧ p.2 = variationsFor now (patternsOf config) p.1) ∧
    (∀ nick ∈ nicks,
      (nick, variationsFor now (patternsOf config) nick)
        ∈ fuzz_usernames nicks config now) ∧
    fuzz_usernames ["a".data, "a".data] config now
      = fuzz_usernames ["a".data] config now := by
  refine ⟨fuzz_keys nicks config now, ?_, ?_, ?_, ?_⟩
  · rw [fuzz_keys]
    exact (pyDictKeys_nodup_and nicks []).1
  · intro p hp
    rcases fuzz_entries nicks config now p hp with ⟨hv, hn⟩
    exact ⟨hn, hv⟩
  · intro nick hn
    exact fuzz_mem_entry nicks config now hn
  · rfl

/-- C9: each loaded pattern rule contributes its candidate, obtained by
substituting the base identifier for every occurrence of `"<USERNAME>"`, to
the output of every nick of the call (the file is loaded once and reused);
`"<USERNAME>_official"` applied to `"carol"` gives `"carol_official"`, and
every occurrence of the placeholder is replaced. -/
theorem fuzz_usernames_custom_patterns (nicks : List Str) (f : FileRead)
    (now : Int) (nick : Str) (h : nick ∈ nicks) :
    (∃ vars, (nick, vars) ∈ fuzz_usernames nicks (some f) now ∧
      ∀ pat ∈ load_custom_patterns f,
        pyReplace usernameTok nick pat ∈ vars) ∧
    pyReplace usernameTok "carol".data "<USERNAME>_official".data
      = "carol_official".data ∧
    pyReplace usernameTok "ab".data "<USERNAME>.<USERNAME>".data
      = "ab.ab".data := by
  refine ⟨⟨variationsFor now (patternsOf (some f)) nick,
    fuzz_mem_entry nicks (some f) now h, ?_⟩, by decide, by decide⟩
  intro pat hpat
  exact mem_variationsFor_of_custom now (patternsOf (some f)) nick hpat

/-- C9 witness: the claim instantiated at a concrete call. -/
theorem fuzz_usernames_custom_patterns_witness :
    "carol".data ∈ (["carol".data] : List Str) ∧
    ((∃ vars, (("carol".data : Str), vars)
        ∈ fuzz_usernames ["carol".data]
            (some ⟨["<USERNAME>_official".data], false⟩) 9 ∧
      ∀ pat ∈ load_custom_patterns ⟨["<USERNAME>_official".data], false⟩,
        pyReplace usernameTok "carol".data pat ∈ vars) ∧
     pyReplace usernameTok "carol".data "<USERNAME>_official".data
       = "carol_official".data ∧
     pyReplace usernameTok "ab".data "<USERNAME>.<USERNAME>".data
       = "ab.ab".data) := by
  have h : "carol".data ∈ (["carol".data] : List Str) := List.mem_singleton.mpr rfl
  exact ⟨h, fuzz_usernames_custom_patterns ["carol".data]
    ⟨["<USERNAME>_official".data], false⟩ 9 "carol".data h⟩

end Fuzz
